import Mathlib

/-!
Verification of the interest-rate storage service (`fence-test`).

The definitions below are a shallow embedding of the Python sources:

* `Dec`, `pyAdd`, `pyMul`, `pyDiv`, `pyInt`, `fix28`, `dropZeros` — Python
  `decimal.Decimal` arithmetic under the default context (28 significant
  digits, `ROUND_HALF_EVEN`), as implemented by `_pydecimal.py`, value-level
  (`Emin`/`Emax` exponent clamping is omitted: no value handled here comes
  near those limits).
* `calculate_and_save_average_rate`, `get_current_rate` —
  `app/services/interest_rate_service.py`, over an abstract storage backend.
* `update_interest_rate`, `get_interest_rate` —
  `app/smart_contracts/client/web3_client.py`, with the remote node modelled
  as an explicit environment and submitted transactions recorded.
* `SmartContractStorage.save_interest_rate` /
  `SmartContractStorage.get_current_interest_rate` —
  `app/smart_contracts/smart_contract_storage.py`.
* `save_interest_rate_db`, `get_current_interest_rate_db` —
  `app/repositories/interest_rate_repository.py`, the table modelled as the
  list of its rows.
-/

set_option maxRecDepth 8000

namespace FenceTest

/-- A Python `decimal.Decimal` value: coefficient `m` and exponent `e`,
denoting `m * 10 ^ e`. -/
structure Dec where
  m : Int
  e : Int
  deriving DecidableEq

/-- Rational value of a decimal. -/
def Dec.toRat (d : Dec) : ℚ :=
  if 0 ≤ d.e then (d.m : ℚ) * (10 : ℚ) ^ d.e.toNat
  else (d.m : ℚ) / (10 : ℚ) ^ (-d.e).toNat

/-- Number of decimal digits, fuel-based so that the kernel can evaluate it
(`len(str(n))` for a nonnegative Python int; `digitsLen 0 = 1`). -/
def digitsLenAux : Nat → Nat → Nat
  | 0, _ => 1
  | f + 1, n => if n < 10 then 1 else digitsLenAux f (n / 10) + 1

/-- `len(str(n))` for `n : ℕ`. -/
def digitsLen (n : Nat) : Nat := digitsLenAux n n

/-- Context precision of Python's default decimal context. -/
def PREC : Nat := 28

/-- Round `a / b` to an integer, ties to even (`ROUND_HALF_EVEN`). -/
def rndHalfEven (a b : Nat) : Nat :=
  let q := a / b
  let r := a % b
  if 2 * r < b then q
  else if b < 2 * r then q + 1
  else if q % 2 = 0 then q else q + 1

/-- `Decimal._fix`: round the coefficient to the context precision of 28
significant digits, `ROUND_HALF_EVEN`.  When rounding up lengthens the
coefficient to 29 digits Python drops the resulting trailing zero and bumps
the exponent; that differs from the representation kept here only by a
trailing zero of the coefficient, not in value. -/
def fix28 (m e : Int) : Dec :=
  if digitsLen m.natAbs ≤ PREC then ⟨m, e⟩
  else
    let drop := digitsLen m.natAbs - PREC
    let c := rndHalfEven m.natAbs (10 ^ drop)
    ⟨if m < 0 then -(c : Int) else (c : Int), e + drop⟩

/-- Python `Decimal.__add__` under the default context, value-level: align the
exponents, add the coefficients exactly, then round to context precision. -/
def pyAdd (a b : Dec) : Dec :=
  let e := min a.e b.e
  fix28 (a.m * 10 ^ (a.e - e).toNat + b.m * 10 ^ (b.e - e).toNat) e

/-- Python `Decimal.__mul__`: multiply coefficients, add exponents, round. -/
def pyMul (a b : Dec) : Dec := fix28 (a.m * b.m) (a.e + b.e)

/-- Python `int(Decimal)` (`Decimal.__trunc__`): truncate toward zero. -/
def pyInt (d : Dec) : Int :=
  if 0 ≤ d.e then d.m * 10 ^ d.e.toNat
  else
    let q : Nat := d.m.natAbs / 10 ^ (-d.e).toNat
    if d.m < 0 then -(q : Int) else (q : Int)

/-- The exact-quotient branch of `Decimal.__truediv__`: while the exponent is
below the ideal exponent and the coefficient keeps a trailing zero, shrink. -/
def dropZeros (c : Nat) (e ideal : Int) : Nat × Int :=
  if e < ideal ∧ c % 10 = 0 then dropZeros (c / 10) (e + 1) ideal
  else (c, e)
termination_by (ideal - e).toNat
decreasing_by
  rename_i h
  omega

/-- Python `Decimal.__truediv__` under the default 28-digit context
(`_pydecimal.py`): shift the dividend so the integer quotient has `PREC + 1`
digits; an inexact quotient's last digit is nudged off multiples of 5 so the
final half-even rounding is correct; an exact quotient is shrunk toward the
ideal exponent; then `_fix` rounds to context precision.  Division by zero
raises in Python and is unreachable at the call sites; it is mapped to
`⟨0, 0⟩` here. -/
def pyDiv (a b : Dec) : Dec :=
  if b.m = 0 then ⟨0, 0⟩
  else if a.m = 0 then ⟨0, a.e - b.e⟩
  else
    let A := a.m.natAbs
    let B := b.m.natAbs
    let shift : Int := (digitsLen B : Int) - (digitsLen A : Int) + PREC + 1
    let exp := a.e - b.e - shift
    let cr : Nat × Nat :=
      if 0 ≤ shift then ((A * 10 ^ shift.toNat) / B, (A * 10 ^ shift.toNat) % B)
      else (A / (B * 10 ^ (-shift).toNat), A % (B * 10 ^ (-shift).toNat))
    let c := if cr.2 ≠ 0 then (if cr.1 % 5 = 0 then cr.1 + 1 else cr.1) else cr.1
    let ce : Nat × Int := if cr.2 = 0 then dropZeros c exp (a.e - b.e) else (c, exp)
    fix28 (if (a.m < 0) ↔ (b.m < 0) then (ce.1 : Int) else -(ce.1 : Int)) ce.2

/-- Python exceptions raised by the embedded code paths. -/
inductive PyErr where
  | valueError (msg : String)
  | exn (msg : String)
  | web3ValidationError (msg : String)
  deriving DecidableEq

/-- `str(e)` of an exception. -/
def PyErr.msg : PyErr → String
  | .valueError m => m
  | .exn m => m
  | .web3ValidationError m => m

/-- `AssetRequest` schema: asset id and its pydantic-validated (`ge=0`) rate. -/
structure AssetRequest where
  id : String
  interest_rate : Dec
  deriving DecidableEq

/-- The abstract `InterestRateStorage` interface the service is built on:
`save_interest_rate` and `get_current_interest_rate` over a backend state. -/
structure StoreOps (σ : Type) where
  save : σ → Dec → String → σ
  load : σ → Option (Dec × String)

/-- `InterestRateService.calculate_and_save_average_rate`: reject an empty
list with `ValueError`, sum the rates (`sum` starts from the int `0`, coerced
to `Decimal`), divide by the length, save the average stamped with the
current time `now`, and return it.  The result pairs the Python outcome with
the final storage state, so that what was (or was not) passed to the
backend's `save` is observable. -/
def calculate_and_save_average_rate {σ : Type} (ops : StoreOps σ) (st : σ)
    (now : String) (assets : List AssetRequest) : Except PyErr Dec × σ :=
  if assets.isEmpty then (.error (.valueError "Asset list cannot be empty"), st)
  else
    let total_rate := (assets.map fun a => a.interest_rate).foldl pyAdd ⟨0, 0⟩
    let average_rate := pyDiv total_rate ⟨(assets.length : Int), 0⟩
    (.ok average_rate, ops.save st average_rate now)

/-- The decimal-context mean the service computes: the `Decimal` sum of the
rates divided by the length under the default 28-digit context. -/
def decimalMean (assets : List AssetRequest) : Dec :=
  pyDiv ((assets.map fun a => a.interest_rate).foldl pyAdd ⟨0, 0⟩)
    ⟨(assets.length : Int), 0⟩

/-- `InterestRateService.get_current_rate`: `return await
self.storage.get_current_interest_rate()`. -/
def get_current_rate {σ : Type} (ops : StoreOps σ) (st : σ) :
    Option (Dec × String) := ops.load st

/-- A transaction receipt as observed through `wait_for_transaction_receipt`. -/
structure Receipt where
  status : Nat
  gasUsed : Nat
  blockNumber : Nat
  deriving DecidableEq

/-- Outcome of `wait_for_transaction_receipt(tx_hash, timeout=120)`: either a
receipt, or the timeout exception it raises. -/
inductive ConfirmOutcome where
  | receiptR (r : Receipt)
  | timeoutE (msg : String)
  deriving DecidableEq

/-- The remote node behaviour observed by one `update_interest_rate` call,
together with the process settings the client reads (`settings.GAS_LIMIT`). -/
structure NodeEnv where
  gasLimit : Nat
  gasPrice : Nat
  nonce : Nat
  txHashHex : String
  confirm : ConfirmOutcome
  deriving DecidableEq

/-- A transaction built by `contract.functions.updateInterestRate(...).
build_transaction`, signed and submitted via `send_raw_transaction`. -/
structure TxCall where
  fnName : String
  rateArg : Nat
  tsArg : Nat
  gas : Nat
  gasPrice : Nat
  nonce : Nat
  deriving DecidableEq

/-- `Web3Client.update_interest_rate`: encode `rate_uint = int(rate *
Decimal('100'))`, build/sign/submit the `updateInterestRate(rate_uint,
timestamp)` transaction, then (when requested) wait for the receipt, a
timeout surfacing as an exception.  ABI encoding of the `uint256` arguments
rejects negative values inside `build_transaction`, before anything is
signed or submitted.  The result pairs the Python outcome with the list of
transactions actually submitted to the node. -/
def update_interest_rate (env : NodeEnv) (rate : Dec) (timestamp : Int)
    (wait_for_confirmation : Bool) :
    Except PyErr (String × Option Receipt) × List TxCall :=
  let rate_uint := pyInt (pyMul rate ⟨100, 0⟩)
  if rate_uint < 0 ∨ timestamp < 0 then
    (.error (.web3ValidationError "value out of range for uint256"), [])
  else
    let txn : TxCall :=
      ⟨"updateInterestRate", rate_uint.toNat, timestamp.toNat,
        env.gasLimit, env.gasPrice, env.nonce⟩
    if wait_for_confirmation then
      match env.confirm with
      | .timeoutE m =>
          (.error (.exn ("Transaction confirmation timeout: " ++ m)), [txn])
      | .receiptR r => (.ok (env.txHashHex, some r), [txn])
    else (.ok (env.txHashHex, none), [txn])

/-- `Web3Client.get_interest_rate`: decode the remote `(rate_uint, timestamp)`
pair by dividing by 100, translate the `(0, 0)` never-written convention to
`None`; the bare `except Exception: return None` swallows any failure of the
remote call into `None` as well. -/
def get_interest_rate (call : Except String (Nat × Nat)) : Option (Dec × Nat) :=
  match call with
  | .error _ => none
  | .ok (rate_uint, timestamp) =>
    let rate := pyDiv ⟨(rate_uint : Int), 0⟩ ⟨100, 0⟩
    if rate.toRat = 0 ∧ timestamp = 0 then none
    else some (rate, timestamp)

/-- The storage slot of `InterestRateContract`: `(rate_uint, timestamp)`,
both zero before the first successful write. -/
structure ChainSlot where
  rate_uint : Nat
  timestamp : Nat
  deriving DecidableEq

/-- Effect of a confirmed `updateInterestRate` transaction on the slot. -/
def applyTx (_s : ChainSlot) (t : TxCall) : ChainSlot := ⟨t.rateArg, t.tsArg⟩

/-- `save(rate, ts)` through the ledger client followed immediately by
`load()`: apply the submitted transactions to the slot and read it back. -/
def save_then_load (env : NodeEnv) (s : ChainSlot) (rate : Dec)
    (timestamp : Int) : Except PyErr (Option (Dec × Nat)) :=
  match update_interest_rate env rate timestamp true with
  | (.error e, _) => .error e
  | (.ok _, txs) =>
    let s' := txs.foldl applyTx s
    .ok (get_interest_rate (.ok (s'.rate_uint, s'.timestamp)))

/-- Split a character list on a separator (like `str.split(sep)`). -/
def splitOnChar (c : Char) : List Char → List (List Char)
  | [] => [[]]
  | x :: xs =>
    let r := splitOnChar c xs
    if x = c then [] :: r
    else
      match r with
      | [] => [[x]]
      | y :: ys => (x :: y) :: ys

/-- Read a nonempty all-digit character list as a natural number. -/
def charsToNat? : List Char → Option Nat
  | [] => none
  | cs =>
    cs.foldl
      (fun acc c =>
        match acc with
        | none => none
        | some n => if c.isDigit then some (n * 10 + (c.toNat - 48)) else none)
      (some 0)

/-- Days since the Unix epoch of a Gregorian civil date (the standard
`days_from_civil` algorithm, as used by `datetime.timestamp()` for UTC). -/
def daysFromCivil (y : Int) (m d : Nat) : Int :=
  let y' := if m ≤ 2 then y - 1 else y
  let era := (if 0 ≤ y' then y' else y' - 399) / 400
  let yoe := (y' - era * 400).toNat
  let doy := (153 * (if 2 < m then m - 3 else m + 9) + 2) / 5 + d - 1
  let doe := yoe * 365 + yoe / 4 - yoe / 100 + doy
  era * 146097 + (doe : Int) - 719468

/-- Gregorian civil date from days since the Unix epoch (the standard
`civil_from_days` algorithm). -/
def civilFromDays (z0 : Int) : Int × Nat × Nat :=
  let z := z0 + 719468
  let era := (if 0 ≤ z then z else z - 146096) / 146097
  let doe := (z - era * 146097).toNat
  let yoe := (doe - doe / 1460 + doe / 36524 - doe / 146096) / 365
  let doy := doe - (365 * yoe + yoe / 4 - yoe / 100)
  let mp := (5 * doy + 2) / 153
  let d := doy - (153 * mp + 2) / 5 + 1
  let m := if mp < 10 then mp + 3 else mp - 9
  ((yoe : Int) + era * 400 + (if m ≤ 2 then 1 else 0), m, d)

/-- `str.replace('Z', '+00:00')` at the character level. -/
def replaceZ (cs : List Char) : List Char :=
  cs.flatMap fun c => if c = 'Z' then ("+00:00".data) else [c]

/-- Drop a trailing `+HH:MM` UTC offset (the only offset this system emits). -/
def stripOffset (cs : List Char) : List Char :=
  match splitOnChar '+' cs with
  | h :: _ => h
  | [] => cs

/-- `int(datetime.fromisoformat(s).timestamp())` for the UTC timestamps this
system produces (`YYYY-MM-DDTHH:MM:SS[.ffffff][+00:00]`); the fractional
seconds are truncated by the `int(...)` conversion.  Malformed input is
`none` (Python raises `ValueError`). -/
def isoToUnix (s : String) : Option Int :=
  match splitOnChar 'T' s.data with
  | [datePart, timePart] =>
    (match splitOnChar '-' datePart, splitOnChar ':' (stripOffset timePart) with
     | [ys, ms, ds], [hs, mins, ss] => do
       let y ← charsToNat? ys
       let mo ← charsToNat? ms
       let d ← charsToNat? ds
       let h ← charsToNat? hs
       let mi ← charsToNat? mins
       let sec ← charsToNat?
         (match splitOnChar '.' ss with
          | s0 :: _ => s0
          | [] => ss)
       if mo = 0 ∨ 12 < mo ∨ d = 0 ∨ 31 < d ∨ 23 < h ∨ 59 < mi ∨ 59 < sec then
         none
       else
         some (daysFromCivil (y : Int) mo d * 86400 +
           ((h * 3600 + mi * 60 + sec : Nat) : Int))
     | _, _ => none)
  | _ => none

/-- Zero-pad to two digits. -/
def pad2 (n : Nat) : String := if n < 10 then "0" ++ toString n else toString n

/-- `datetime.fromtimestamp(ts, tz=timezone.utc).isoformat()` for a whole
number of seconds (microsecond 0, so Python omits the fraction). -/
def unixToIso (ts : Nat) : String :=
  let days := ts / 86400
  let secs := ts % 86400
  match civilFromDays (days : Int) with
  | (y, m, d) =>
    toString y ++ "-" ++ pad2 m ++ "-" ++ pad2 d ++ "T" ++
      pad2 (secs / 3600) ++ ":" ++ pad2 (secs % 3600 / 60) ++ ":" ++
      pad2 (secs % 60) ++ "+00:00"

/-- `SmartContractStorage.save_interest_rate`: convert the ISO timestamp to a
Unix epoch, call `update_interest_rate` waiting for confirmation, then check
hash, receipt and receipt status; every exception raised inside the `try`
block (including the method's own `raise` statements) is caught by the
`except` clause and re-raised wrapped with context. -/
def SmartContractStorage.save_interest_rate (env : NodeEnv) (rate : Dec)
    (timestamp : String) : Except String Unit :=
  let wrap := fun (m : String) =>
    "Failed to save interest rate to smart contract: " ++ m
  match isoToUnix (String.mk (replaceZ timestamp.data)) with
  | none => .error (wrap "Invalid isoformat string")
  | some unix_timestamp =>
    match update_interest_rate env rate unix_timestamp true with
    | (.error e, _) => .error (wrap e.msg)
    | (.ok (tx_hash, receipt), _) =>
      if tx_hash = "" then
        .error (wrap "Transaction failed - no transaction hash returned")
      else
        match receipt with
        | none =>
          .error (wrap "Transaction confirmation failed - no receipt received")
        | some r =>
          if r.status = 0 then
            .error (wrap ("Transaction failed with status 0. TX: " ++ tx_hash))
          else .ok ()

/-- `SmartContractStorage.get_current_interest_rate`: pass `None` through,
and convert the Unix timestamp of a present value back to ISO-8601. -/
def SmartContractStorage.get_current_interest_rate
    (call : Except String (Nat × Nat)) : Option (Dec × String) :=
  match get_interest_rate call with
  | none => none
  | some (rate, unix_timestamp) => some (rate, unixToIso unix_timestamp)

/-- A row of the append-only `interest_rates` table
(`id` integer primary key, `rate NUMERIC(10, 2)`, `updated_at TIMESTAMP`). -/
structure InterestRateRow where
  id : Nat
  rate : Dec
  updated_at : Int
  deriving DecidableEq

/-- `InterestRateRepository.save_interest_rate`: `session.add` of one new row
followed by `commit` — an `INSERT`, with the primary key assigned by the
database (modelled as the next serial value). -/
def save_interest_rate_db (db : List InterestRateRow) (rate : Dec)
    (timestamp : Int) : List InterestRateRow :=
  db ++ [⟨db.length + 1, rate, timestamp⟩]

/-- `InterestRateRepository.get_current_interest_rate`:
`ORDER BY updated_at DESC` then `first()` — a row with maximal `updated_at`
(SQL leaves the choice among ties unspecified; this model keeps the earliest
such row). -/
def get_current_interest_rate_db : List InterestRateRow → Option (Dec × Int)
  | [] => none
  | r :: rs =>
    match get_current_interest_rate_db rs with
    | none => some (r.rate, r.updated_at)
    | some (ra, ts) =>
      if ts ≤ r.updated_at then some (r.rate, r.updated_at) else some (ra, ts)

/-- A spy backend: its state is the list of `save` calls received. -/
def spyOps : StoreOps (List (Dec × String)) where
  save := fun st r t => st ++ [(r, t)]
  load := fun _ => none

/-- The service storage backed by `SmartContractStorage` reads: the state is
the outcome of the remote read call. -/
def smartContractOps : StoreOps (Except String (Nat × Nat)) where
  save := fun st _ _ => st
  load := fun call => SmartContractStorage.get_current_interest_rate call

theorem digitsLenAux_spec (f : Nat) : ∀ n : Nat, n ≤ f →
    1 ≤ digitsLenAux f n ∧ 10 ^ (digitsLenAux f n - 1) ≤ max n 1 ∧
      n < 10 ^ digitsLenAux f n := by
  induction f with
  | zero =>
    intro n hn
    have : n = 0 := Nat.le_zero.mp hn
    subst this
    simp [digitsLenAux]
  | succ f ih =>
    intro n hn
    by_cases h10 : n < 10
    · simp only [digitsLenAux, if_pos h10]
      refine ⟨le_rfl, by simp, by simpa using h10⟩
    · push_neg at h10
      have hdiv : n / 10 ≤ f := by
        have := Nat.div_lt_self (show 0 < n by omega) (show 1 < 10 by norm_num)
        omega
      obtain ⟨h1, hlo, hhi⟩ := ih (n / 10) hdiv
      simp only [digitsLenAux, if_neg (by omega : ¬ n < 10)]
      refine ⟨by omega, ?_, ?_⟩
      · have hq1 : 1 ≤ n / 10 := (Nat.one_le_div_iff (by norm_num)).mpr h10
        have hlo' : 10 ^ (digitsLenAux f (n / 10) - 1) ≤ n / 10 := by
          simpa [Nat.max_eq_left hq1] using hlo
        have : 10 ^ (digitsLenAux f (n / 10) - 1) * 10 ≤ n / 10 * 10 :=
          Nat.mul_le_mul_right 10 hlo'
        have hmul : n / 10 * 10 ≤ n := Nat.div_mul_le_self n 10
        have hexp : 10 ^ (digitsLenAux f (n / 10) - 1) * 10 =
            10 ^ (digitsLenAux f (n / 10) + 1 - 1) := by
          have h1' := h1
          rw [Nat.add_sub_cancel]
          calc 10 ^ (digitsLenAux f (n / 10) - 1) * 10
              = 10 ^ (digitsLenAux f (n / 10) - 1 + 1) := by rw [pow_succ]
            _ = 10 ^ digitsLenAux f (n / 10) := by congr 1; omega
        rw [hexp] at this
        have : 10 ^ (digitsLenAux f (n / 10) + 1 - 1) ≤ n := le_trans this hmul
        simpa [Nat.max_eq_left (show 1 ≤ n by omega)] using this
      · have : n < (n / 10 + 1) * 10 := by
          have h1' := Nat.div_add_mod n 10
          have h2' : n % 10 < 10 := Nat.mod_lt n (by norm_num)
          omega
        have h2 : (n / 10 + 1) * 10 ≤ 10 ^ digitsLenAux f (n / 10) * 10 := by
          have : n / 10 + 1 ≤ 10 ^ digitsLenAux f (n / 10) := hhi
          exact Nat.mul_le_mul_right 10 this
        calc n < (n / 10 + 1) * 10 := this
          _ ≤ 10 ^ digitsLenAux f (n / 10) * 10 := h2
          _ = 10 ^ (digitsLenAux f (n / 10) + 1) := by rw [pow_succ]

theorem digitsLen_spec (n : Nat) :
    1 ≤ digitsLen n ∧ 10 ^ (digitsLen n - 1) ≤ max n 1 ∧ n < 10 ^ digitsLen n :=
  digitsLenAux_spec n n le_rfl

theorem digitsLen_pos (n : Nat) : 1 ≤ digitsLen n := (digitsLen_spec n).1

theorem digitsLen_lt (n : Nat) : n < 10 ^ digitsLen n := (digitsLen_spec n).2.2

theorem digitsLen_le (n : Nat) (hn : 1 ≤ n) : 10 ^ (digitsLen n - 1) ≤ n := by
  have := (digitsLen_spec n).2.1
  rwa [Nat.max_eq_left hn] at this

/-- `digitsLen` is determined by the two-sided power bounds. -/
theorem digitsLen_eq_of_bounds (n L : Nat) (hL : 1 ≤ L)
    (h1 : 10 ^ (L - 1) ≤ n) (h2 : n < 10 ^ L) : digitsLen n = L := by
  have hn : 1 ≤ n := le_trans (Nat.one_le_pow _ _ (by norm_num)) h1
  have hlo := digitsLen_le n hn
  have hhi := digitsLen_lt n
  by_contra hne
  rcases Nat.lt_or_ge (digitsLen n) L with hlt | hge
  · have : (10 : Nat) ^ digitsLen n ≤ 10 ^ (L - 1) :=
      Nat.pow_le_pow_right (by norm_num) (by omega)
    omega
  · have hgt : L < digitsLen n := by omega
    have : (10 : Nat) ^ L ≤ 10 ^ (digitsLen n - 1) :=
      Nat.pow_le_pow_right (by norm_num) (by omega)
    omega

theorem digitsLen_le_of_lt (n k : Nat) (hk : 1 ≤ k) (h : n < 10 ^ k) :
    digitsLen n ≤ k := by
  by_contra hgt
  have : (10 : Nat) ^ k ≤ 10 ^ (digitsLen n - 1) :=
    Nat.pow_le_pow_right (by norm_num) (by omega)
  have h2 := (digitsLen_spec n).2.1
  have : (10 : Nat) ^ k ≤ max n 1 := le_trans this h2
  have hk1 : (1 : Nat) < 10 ^ k :=
    Nat.one_lt_pow (by omega) (by norm_num)
  rcases max_choice n 1 with hmax | hmax <;> omega

theorem digitsLen_mul_pow10 (d j : Nat) (hd : 1 ≤ d) :
    digitsLen (d * 10 ^ j) = digitsLen d + j := by
  apply digitsLen_eq_of_bounds _ _ (by have := digitsLen_pos d; omega)
  · have h := digitsLen_le d hd
    calc 10 ^ (digitsLen d + j - 1) = 10 ^ (digitsLen d - 1) * 10 ^ j := by
          rw [← pow_add]; congr 1; have := digitsLen_pos d; omega
      _ ≤ d * 10 ^ j := Nat.mul_le_mul_right _ h
  · calc d * 10 ^ j < 10 ^ digitsLen d * 10 ^ j :=
        (Nat.mul_lt_mul_right (Nat.pow_pos (by norm_num))).mpr (digitsLen_lt d)
      _ = 10 ^ (digitsLen d + j) := by rw [← pow_add]

theorem dropZeros_spec_aux (d : Nat) (hd : d % 10 ≠ 0) :
    ∀ (g J : Nat) (e ideal : Int), (ideal - e).toNat = g →
      dropZeros (d * 10 ^ J) e ideal =
        (d * 10 ^ (J - min J g), e + min J g) := by
  intro g
  induction g with
  | zero =>
    intro J e ideal hg
    rw [dropZeros]
    have hni : ¬ e < ideal := by omega
    simp [hni]
  | succ g ih =>
    intro J e ideal hg
    have he : e < ideal := by omega
    match J with
    | 0 =>
      rw [dropZeros]
      rw [if_neg (by simpa using fun _ => hd)]
      simp
    | J + 1 =>
      rw [dropZeros]
      have hmod : d * 10 ^ (J + 1) % 10 = 0 := by
        have : (10 : Nat) ∣ d * 10 ^ (J + 1) := ⟨d * 10 ^ J, by ring⟩
        omega
      have hdiv : d * 10 ^ (J + 1) / 10 = d * 10 ^ J := by
        rw [pow_succ, ← mul_assoc]
        exact Nat.mul_div_cancel _ (by norm_num)
      rw [if_pos ⟨he, hmod⟩, hdiv, ih J (e + 1) ideal (by omega)]
      have hmin : min (J + 1) (g + 1) = min J g + 1 := by omega
      have hJ : J + 1 - min (J + 1) (g + 1) = J - min J g := by omega
      rw [hJ, hmin]
      refine congrArg _ ?_
      push_cast
      ring

theorem dropZeros_spec (d J : Nat) (hd : d % 10 ≠ 0) (e ideal : Int) :
    dropZeros (d * 10 ^ J) e ideal =
      (d * 10 ^ (J - min J (ideal - e).toNat), e + min J (ideal - e).toNat) :=
  dropZeros_spec_aux d hd _ J e ideal rfl

theorem dropZeros_pos_aux :
    ∀ (g : Nat) (c : Nat) (e ideal : Int), (ideal - e).toNat = g → 0 < c →
      0 < (dropZeros c e ideal).1 := by
  intro g
  induction g with
  | zero =>
    intro c e ideal hg hc
    rw [dropZeros]
    have hni : ¬ e < ideal := by omega
    simpa [hni] using hc
  | succ g ih =>
    intro c e ideal hg hc
    rw [dropZeros]
    by_cases hm : c % 10 = 0
    · have he : e < ideal := by omega
      rw [if_pos ⟨he, hm⟩]
      exact ih (c / 10) (e + 1) ideal (by omega) (by omega)
    · rw [if_neg (by tauto)]
      exact hc

theorem dropZeros_pos (c : Nat) (e ideal : Int) (hc : 0 < c) :
    0 < (dropZeros c e ideal).1 :=
  dropZeros_pos_aux _ c e ideal rfl hc

theorem fix28_of_le (m e : Int) (h : digitsLen m.natAbs ≤ PREC) :
    fix28 m e = ⟨m, e⟩ := by
  rw [fix28, if_pos h]

theorem rndHalfEven_pos (a b : Nat) (hb : 0 < b) (hba : b ≤ a) :
    0 < rndHalfEven a b := by
  have hq : 0 < a / b := Nat.div_pos hba hb
  simp only [rndHalfEven]
  split_ifs <;> omega

theorem fix28_m_pos (m e : Int) (hm : 0 < m) : 0 < (fix28 m e).m := by
  rw [fix28]
  split
  · exact hm
  · rename_i h
    have hneg : ¬ m < 0 := by omega
    simp only [if_neg hneg]
    have hub : 0 < rndHalfEven m.natAbs
        (10 ^ (digitsLen m.natAbs - PREC)) := by
      apply rndHalfEven_pos _ _ (Nat.pow_pos (by norm_num))
      have h1 : 1 ≤ m.natAbs := by omega
      calc (10 : Nat) ^ (digitsLen m.natAbs - PREC) ≤
            10 ^ (digitsLen m.natAbs - 1) := by
            apply Nat.pow_le_pow_right (by norm_num)
            have := digitsLen_pos m.natAbs
            simp only [PREC] at h ⊢
            omega
        _ ≤ m.natAbs := digitsLen_le _ h1
    exact_mod_cast hub

theorem Dec.toRat_pos (d : Dec) (h : 0 < d.m) : 0 < d.toRat := by
  unfold Dec.toRat
  split
  · have h1 : (0 : ℚ) < (d.m : ℚ) := by exact_mod_cast h
    have h2 : (0 : ℚ) < (10 : ℚ) ^ d.e.toNat := by positivity
    exact mul_pos h1 h2
  · have h1 : (0 : ℚ) < (d.m : ℚ) := by exact_mod_cast h
    have h2 : (0 : ℚ) < (10 : ℚ) ^ (-d.e).toNat := by positivity
    exact div_pos h1 h2

/-- For a dividend of up to 30 digits, `pyDiv` by `Decimal(100)` reduces to the
exact-quotient branch: shrink toward the ideal exponent, then `_fix`. -/
theorem pyDiv_core (k : Nat) (hk : 0 < k) (hL : digitsLen k ≤ 30) :
    pyDiv ⟨(k : Int), 0⟩ ⟨100, 0⟩ =
      fix28 ((dropZeros (k * 10 ^ (30 - digitsLen k)) ((digitsLen k : Int) - 32) 0).1 : Int)
        (dropZeros (k * 10 ^ (30 - digitsLen k)) ((digitsLen k : Int) - 32) 0).2 := by
  have hA : (100 : Int).natAbs = 100 := rfl
  have hP : ((PREC : Nat) : Int) = 28 := rfl
  have h100 : digitsLen 100 = 3 := by decide
  have hk0 : ((k : Nat) : Int) ≠ 0 := by exact_mod_cast hk.ne'
  have hknn : ¬ ((k : Nat) : Int) < 0 := by
    have := Int.natCast_nonneg k
    omega
  have h100nn : ¬ (100 : Int) < 0 := by norm_num
  have hsh : (0 : Int) ≤ (((3 : Nat)) : Int) - (digitsLen k : Int) + 28 + 1 := by
    have : (digitsLen k : Int) ≤ 30 := by exact_mod_cast hL
    push_cast
    omega
  have hshtn : ((((3 : Nat)) : Int) - (digitsLen k : Int) + 28 + 1).toNat =
      32 - digitsLen k := by
    omega
  have hfac : k * 10 ^ (32 - digitsLen k) = k * 10 ^ (30 - digitsLen k) * 100 := by
    rw [mul_assoc]
    congr 1
    rw [show (100 : Nat) = 10 ^ 2 from rfl, ← pow_add]
    congr 1
    omega
  have hdivq : k * 10 ^ (32 - digitsLen k) / 100 = k * 10 ^ (30 - digitsLen k) := by
    rw [hfac]; exact Nat.mul_div_cancel _ (by norm_num)
  have hmodq : k * 10 ^ (32 - digitsLen k) % 100 = 0 := by
    rw [hfac]; exact Nat.mul_mod_left _ _
  have hexp : (0 : Int) - 0 - ((((3 : Nat)) : Int) - (digitsLen k : Int) + 28 + 1) =
      (digitsLen k : Int) - 32 := by
    push_cast
    ring
  simp only [pyDiv, Int.natAbs_ofNat, hA, h100, hP, if_neg (by norm_num : ¬(100 : Int) = 0),
    if_neg hk0, if_pos hsh, hshtn, hdivq, hmodq, hknn, h100nn, hexp]
  norm_num

/-- Dividing a decomposed `d * 10 ^ j` (with `d` not a multiple of 10) by
`Decimal(100)` is exact under the default context: the value is preserved. -/
theorem pyDiv_hundred (d j : Nat) (hd10 : d % 10 ≠ 0) (hd : 0 < d)
    (hLd : digitsLen d ≤ 28) (hLk : digitsLen d + j ≤ 30) :
    (pyDiv ⟨((d * 10 ^ j : Nat) : Int), 0⟩ ⟨100, 0⟩).toRat =
      ((d * 10 ^ j : Nat) : ℚ) / 100 := by
  have hkpos : 0 < d * 10 ^ j := Nat.mul_pos hd (Nat.pow_pos (by norm_num))
  have hL : digitsLen (d * 10 ^ j) = digitsLen d + j := digitsLen_mul_pow10 d j hd
  rw [pyDiv_core _ hkpos (by omega)]
  have hJ : d * 10 ^ j * 10 ^ (30 - digitsLen (d * 10 ^ j)) =
      d * 10 ^ (j + (30 - digitsLen (d * 10 ^ j))) := by
    rw [mul_assoc, ← pow_add]
  rw [hJ, dropZeros_spec d _ hd10 _ 0]
  have hgap : ((0 : Int) - ((digitsLen (d * 10 ^ j) : Int) - 32)).toNat =
      32 - digitsLen (d * 10 ^ j) := by
    have : (digitsLen (d * 10 ^ j) : Int) = (digitsLen d : Int) + j := by
      exact_mod_cast hL
    omega
  rw [hgap]
  have hLdpos := digitsLen_pos d
  rcases le_or_lt j 2 with hj | hj
  · -- at most two zeros to give back: the quotient keeps coefficient d
    have hmin : min (j + (30 - digitsLen (d * 10 ^ j)))
        (32 - digitsLen (d * 10 ^ j)) = j + (30 - digitsLen (d * 10 ^ j)) := by
      omega
    rw [hmin]
    have hsub : j + (30 - digitsLen (d * 10 ^ j)) -
        (j + (30 - digitsLen (d * 10 ^ j))) = 0 := Nat.sub_self _
    rw [hsub, pow_zero, mul_one]
    have hcast : (digitsLen (d * 10 ^ j) : Int) - 32 +
        ((j + (30 - digitsLen (d * 10 ^ j)) : Nat) : Int) = (j : Int) - 2 := by
      have : (digitsLen (d * 10 ^ j) : Int) = (digitsLen d : Int) + j := by
        exact_mod_cast hL
      omega
    rw [hcast, fix28_of_le _ _ (by simpa using hLd)]
    interval_cases j <;>
        simp only [Dec.toRat] <;>
        norm_num [Int.toNat_ofNat] <;>
        field_simp <;>
        first
          | ring1
          | (left; decide)
  · -- more than two zeros: the exponent reaches the ideal 0
    obtain ⟨t, rfl⟩ : ∃ t, j = t + 2 := ⟨j - 2, by omega⟩
    have hmin : min (t + 2 + (30 - digitsLen (d * 10 ^ (t + 2))))
        (32 - digitsLen (d * 10 ^ (t + 2))) = 32 - digitsLen (d * 10 ^ (t + 2)) := by
      omega
    rw [hmin]
    have hsub : t + 2 + (30 - digitsLen (d * 10 ^ (t + 2))) -
        (32 - digitsLen (d * 10 ^ (t + 2))) = t := by
      omega
    have hcast : (digitsLen (d * 10 ^ (t + 2)) : Int) - 32 +
        ((32 - digitsLen (d * 10 ^ (t + 2)) : Nat) : Int) = 0 := by
      have : (digitsLen (d * 10 ^ (t + 2)) : Int) = (digitsLen d : Int) + (t + 2) := by
        exact_mod_cast hL
      omega
    rw [hsub, hcast]
    have hdig : digitsLen ((↑(d * 10 ^ t) : Int)).natAbs ≤ PREC := by
      rw [Int.natAbs_ofNat, digitsLen_mul_pow10 d _ hd]
      simp only [PREC]
      omega
    rw [fix28_of_le _ _ hdig]
    have htr : (Dec.mk (↑(d * 10 ^ t) : Int) 0).toRat = ((d * 10 ^ t : Nat) : ℚ) := by
      simp [Dec.toRat]
    rw [htr, eq_div_iff (by norm_num : (100 : ℚ) ≠ 0)]
    push_cast
    rw [pow_add]
    norm_num
    ring

/-- Every positive natural splits off its trailing zeros. -/
theorem exists_decomp (m : Nat) (hm : 0 < m) :
    ∃ d z, m = d * 10 ^ z ∧ d % 10 ≠ 0 ∧ 0 < d := by
  induction m using Nat.strong_induction_on with
  | _ m ih =>
    by_cases h : m % 10 = 0
    · have h10 : 10 ≤ m := by omega
      have hq : 0 < m / 10 := (Nat.one_le_div_iff (by norm_num)).mpr h10
      obtain ⟨d, z, hdz, hd10, hdp⟩ :=
        ih (m / 10) (Nat.div_lt_self (by omega) (by norm_num)) hq
      refine ⟨d, z + 1, ?_, hd10, hdp⟩
      have hmul : m = m / 10 * 10 :=
        (Nat.div_mul_cancel (Nat.dvd_of_mod_eq_zero h)).symm
      rw [hmul, hdz, pow_succ, mul_assoc]
    · exact ⟨m, 0, by simp, h, hm⟩

/-- Dividing any positive integer by `Decimal(100)` keeps a positive
coefficient, whatever branch of the division algorithm runs. -/
theorem pyDiv_hundred_m_pos (k : Nat) (hk : 0 < k) :
    0 < (pyDiv ⟨(k : Int), 0⟩ ⟨100, 0⟩).m := by
  have hA : (100 : Int).natAbs = 100 := rfl
  have hP : ((PREC : Nat) : Int) = 28 := rfl
  have h100 : digitsLen 100 = 3 := by decide
  have hk0 : ((k : Nat) : Int) ≠ 0 := by exact_mod_cast hk.ne'
  have hknn : ¬ ((k : Nat) : Int) < 0 := by
    have := Int.natCast_nonneg k
    omega
  have h100nn : ¬ (100 : Int) < 0 := by norm_num
  have hLpos := digitsLen_pos k
  have hkle := digitsLen_le k hk
  simp only [pyDiv, Int.natAbs_ofNat, hA, h100, hP,
    if_neg (by norm_num : ¬(100 : Int) = 0), if_neg hk0, hknn, h100nn,
    iff_self, if_true]
  rcases le_or_lt (digitsLen k) 32 with hL | hL
  · have hsh : (0 : Int) ≤ (((3 : Nat)) : Int) - (digitsLen k : Int) + 28 + 1 := by
      have : (digitsLen k : Int) ≤ 32 := by exact_mod_cast hL
      push_cast
      omega
    have hshtn : ((((3 : Nat)) : Int) - (digitsLen k : Int) + 28 + 1).toNat =
        32 - digitsLen k := by omega
    rw [if_pos hsh]
    simp only [hshtn]
    have hq : 0 < k * 10 ^ (32 - digitsLen k) / 100 := by
      apply Nat.div_pos _ (by norm_num)
      calc (100 : Nat) ≤ 10 ^ 31 := by norm_num
        _ = 10 ^ (digitsLen k - 1) * 10 ^ (32 - digitsLen k) := by
            rw [← pow_add]; congr 1; omega
        _ ≤ k * 10 ^ (32 - digitsLen k) := Nat.mul_le_mul_right _ hkle
    split_ifs <;>
      apply fix28_m_pos <;>
      refine Int.natCast_pos.mpr ?_ <;>
      first
        | (apply dropZeros_pos; omega)
        | omega
  · have hsh : ¬ (0 : Int) ≤ (((3 : Nat)) : Int) - (digitsLen k : Int) + 28 + 1 := by
      have : (32 : Int) < (digitsLen k : Int) := by exact_mod_cast hL
      push_cast
      omega
    have hshtn : (-((((3 : Nat)) : Int) - (digitsLen k : Int) + 28 + 1)).toNat =
        digitsLen k - 32 := by omega
    rw [if_neg hsh]
    simp only [hshtn]
    have hq : 0 < k / (100 * 10 ^ (digitsLen k - 32)) := by
      apply Nat.div_pos _ (by positivity)
      calc 100 * 10 ^ (digitsLen k - 32) = 10 ^ (digitsLen k - 30) := by
            rw [show (100 : Nat) = 10 ^ 2 from rfl, ← pow_add]; congr 1; omega
        _ ≤ 10 ^ (digitsLen k - 1) := Nat.pow_le_pow_right (by norm_num) (by omega)
        _ ≤ k := hkle
    split_ifs <;>
      apply fix28_m_pos <;>
      refine Int.natCast_pos.mpr ?_ <;>
      first
        | (apply dropZeros_pos; omega)
        | omega

/-- Multiplying by `Decimal(100)` appends two zeros to the coefficient and is
exact while the result stays within context precision. -/
theorem pyMul_hundred (m e : Int) (hd : digitsLen m.natAbs ≤ 26) :
    pyMul ⟨m, e⟩ ⟨100, 0⟩ = ⟨m * 100, e⟩ := by
  have habs : (m * 100).natAbs = m.natAbs * 100 := by
    rw [Int.natAbs_mul]
    rfl
  have h1 : m.natAbs < 10 ^ 26 :=
    lt_of_lt_of_le (digitsLen_lt _) (Nat.pow_le_pow_right (by norm_num) hd)
  have hlt : m.natAbs * 100 < 10 ^ 28 := by
    calc m.natAbs * 100 < 10 ^ 26 * 100 := by
          exact (Nat.mul_lt_mul_right (by norm_num)).mpr h1
      _ = 10 ^ 28 := by norm_num
  have hdig : digitsLen (m * 100).natAbs ≤ 28 := by
    rw [habs]
    exact digitsLen_le_of_lt _ _ (by norm_num) hlt
  have hstep : pyMul ⟨m, e⟩ ⟨100, 0⟩ = fix28 (m * 100) (e + 0) := rfl
  rw [hstep, fix28_of_le _ _ hdig, add_zero]

theorem pyInt_floor (m e : Int) (hm : 0 ≤ m) :
    pyInt ⟨m, e⟩ = ⌊(Dec.mk m e).toRat⌋ := by
  lift m to ℕ using hm with n
  simp only [pyInt, Dec.toRat]
  split_ifs with he hneg
  · rw [show (((n : Int) : ℚ) * (10 : ℚ) ^ Int.toNat e) =
        (((n * 10 ^ e.toNat : Nat) : Int) : ℚ) by push_cast; ring,
      Int.floor_intCast]
    push_cast
    ring
  · have := Int.natCast_nonneg n
    omega
  · simp only [Int.natAbs_ofNat]
    have hcast : ((((n : Int)) : ℚ) / (10 : ℚ) ^ (-e).toNat) =
        ((n : ℚ) / ((10 ^ (-e).toNat : Nat) : ℚ)) := by
      push_cast
      ring
    rw [hcast, Rat.floor_natCast_div_natCast n (10 ^ (-e).toNat)]
    norm_cast

theorem Dec.toRat_scale (m e c : Int) :
    (Dec.mk (m * c) e).toRat = (Dec.mk m e).toRat * c := by
  unfold Dec.toRat
  split <;> push_cast <;> ring

theorem Dec.toRat_nonneg (d : Dec) (h : 0 ≤ d.m) : 0 ≤ d.toRat := by
  unfold Dec.toRat
  have h' : (0 : ℚ) ≤ (d.m : ℚ) := by exact_mod_cast h
  split
  · positivity
  · positivity

theorem pyDiv_zero : pyDiv ⟨(0 : Int), 0⟩ ⟨100, 0⟩ = ⟨0, 0⟩ := rfl

theorem pyDiv_zero_toRat : (pyDiv ⟨(0 : Int), 0⟩ ⟨100, 0⟩).toRat = 0 := by
  rw [pyDiv_zero]
  simp [Dec.toRat]

/-- C2: `calculate_and_save_average_rate` applied to the empty list raises
`ValueError("Asset list cannot be empty")` — the `InvalidInput`-class
validation error — and leaves the state of every conceivable backend
untouched: the storage `save` is never invoked. -/
theorem calculate_and_save_empty_rejected {σ : Type} (ops : StoreOps σ)
    (st : σ) (now : String) :
    calculate_and_save_average_rate ops st now [] =
      (.error (.valueError "Asset list cannot be empty"), st) := rfl

/-- C1 counterexample: for the rates `[10.00, 20.00, 15.50]` the service
returns and persists `15.16666666666666666666666667` — the quotient rounded
to the context's 28 significant digits — which is not the exact arithmetic
mean `sum / n = 91/6` of the submitted rates. -/
theorem calculate_and_save_rounds_counterexample :
    calculate_and_save_average_rate spyOps [] "t"
        [⟨"a", ⟨1000, -2⟩⟩, ⟨"b", ⟨2000, -2⟩⟩, ⟨"c", ⟨1550, -2⟩⟩] =
      (.ok ⟨1516666666666666666666666667, -26⟩,
        [(⟨1516666666666666666666666667, -26⟩, "t")]) ∧
      (Dec.mk 1516666666666666666666666667 (-26)).toRat ≠
        ((Dec.mk 1000 (-2)).toRat + (Dec.mk 2000 (-2)).toRat +
          (Dec.mk 1550 (-2)).toRat) / 3 := by
  constructor
  · rfl
  · simp [Dec.toRat]
    norm_num

/-- C1 (amended): for every nonempty asset list the service computes the mean
in Python `Decimal` arithmetic — the decimal sum of the rates divided by the
count under the default 28-significant-digit context — returns it, and
passes exactly that value, unchanged, as the rate of the single `save` call
made on the backend.  (The persisted value equals the exact rational mean
only when the quotient fits in 28 significant digits; see the
counterexample.) -/
theorem calculate_and_save_passes_decimal_mean {σ : Type} (ops : StoreOps σ)
    (st : σ) (now : String) (assets : List AssetRequest) (h : assets ≠ []) :
    calculate_and_save_average_rate ops st now assets =
      (.ok (decimalMean assets), ops.save st (decimalMean assets) now) := by
  have h' : ¬ assets.isEmpty := by simpa [List.isEmpty_iff] using h
  simp [calculate_and_save_average_rate, decimalMean, h']

theorem calculate_and_save_passes_decimal_mean_witness :
    ([(⟨"a", ⟨1000, -2⟩⟩ : AssetRequest)] ≠ []) ∧
      calculate_and_save_average_rate spyOps [] "t" [⟨"a", ⟨1000, -2⟩⟩] =
        (.ok (decimalMean [⟨"a", ⟨1000, -2⟩⟩]),
          spyOps.save [] (decimalMean [⟨"a", ⟨1000, -2⟩⟩]) "t") :=
  ⟨by simp, calculate_and_save_passes_decimal_mean spyOps [] "t" _ (by simp)⟩

/-- C10: `get_current_rate` is the identity pass-through to the configured
backend's `get_current_interest_rate`, and composed with the ledger storage
the raw never-written sentinel pair `(0, 0)` reaches the service caller as
the domain-level `none` ("not found"), never as a zero-rate value. -/
theorem get_current_rate_passthrough :
    (∀ (σ : Type) (ops : StoreOps σ) (st : σ),
        get_current_rate ops st = ops.load st) ∧
      get_current_rate smartContractOps (.ok (0, 0)) = none := by
  refine ⟨fun σ ops st => rfl, ?_⟩
  simp [get_current_rate, smartContractOps, SmartContractStorage.get_current_interest_rate,
    get_interest_rate, pyDiv_zero_toRat]

/-- C5: on a successful remote read the ledger adapter's `load` yields `none`
exactly for the pair `(0, 0)` (zero scaled rate and zero timestamp, the
never-written convention); every pair with a nonzero component is returned
as a present value whose rate is the scaled integer divided by 100. -/
theorem get_interest_rate_absent_iff (rate_uint ts : Nat) :
    (get_interest_rate (.ok (rate_uint, ts)) = none ↔
        rate_uint = 0 ∧ ts = 0) ∧
      (¬(rate_uint = 0 ∧ ts = 0) →
        get_interest_rate (.ok (rate_uint, ts)) =
          some (pyDiv ⟨(rate_uint : Int), 0⟩ ⟨100, 0⟩, ts)) := by
  by_cases hr : rate_uint = 0
  · subst hr
    by_cases hts : ts = 0
    · subst hts
      constructor
      · simp [get_interest_rate, pyDiv_zero_toRat]
      · intro h
        omega
    · constructor
      · simp [get_interest_rate, pyDiv_zero_toRat, hts]
      · intro _
        simp [get_interest_rate, pyDiv_zero_toRat, hts]
  · have hpos := pyDiv_hundred_m_pos rate_uint (by omega)
    have hne : (pyDiv ⟨(rate_uint : Int), 0⟩ ⟨100, 0⟩).toRat ≠ 0 :=
      ne_of_gt (Dec.toRat_pos _ hpos)
    constructor
    · simp [get_interest_rate, hne, hr]
    · intro _
      simp [get_interest_rate, hne]

theorem get_interest_rate_absent_iff_witness :
    ¬((1550 : Nat) = 0 ∧ (0 : Nat) = 0) ∧
      get_interest_rate (.ok (1550, 0)) =
        some (pyDiv ⟨((1550 : Nat) : Int), 0⟩ ⟨100, 0⟩, 0) :=
  ⟨by decide, (get_interest_rate_absent_iff 1550 0).2 (by decide)⟩

/-- C6 counterexample: a failing remote read (the underlying call raises) is
returned by the ledger adapter's `load` as `none` — the very same result as
the legitimate never-written `(0, 0)` state — so the failure reaches the
caller as the absent sentinel, not as a distinguishable error. -/
theorem get_interest_rate_failure_counterexample :
    get_interest_rate (.error "ConnectionError: node unreachable") = none ∧
      get_interest_rate (.ok (0, 0)) = none := by
  constructor
  · rfl
  · simp [get_interest_rate, pyDiv_zero_toRat]

/-- C6 (amended): the ledger adapter's bare `except Exception: return None`
maps every failure of the remote read to the absent sentinel `none`, and the
storage layer passes that through unchanged; a load failure is therefore
*not* distinguishable from "absent" by the caller. -/
theorem get_interest_rate_failure_is_absent (msg : String) :
    get_interest_rate (.error msg) = none ∧
      SmartContractStorage.get_current_interest_rate (.error msg) = none :=
  ⟨rfl, rfl⟩

/-- C3 counterexample: the rate `15.123` needs three decimal places; the
ledger adapter does not reject it — `int(rate * Decimal('100'))` silently
truncates it to `1512` and the transaction is built, signed and submitted
successfully.  The second conjunct records that the encoding was lossy:
`1512 / 100 ≠ 15.123`. -/
theorem update_interest_rate_precision_counterexample :
    update_interest_rate ⟨3000000, 7, 5, "0xabc", .receiptR ⟨1, 21000, 12⟩⟩
        ⟨15123, -3⟩ 1700000000 true =
      (.ok ("0xabc", some ⟨1, 21000, 12⟩),
        [⟨"updateInterestRate", 1512, 1700000000, 3000000, 7, 5⟩]) ∧
      ((1512 : ℚ) / 100) ≠ (Dec.mk 15123 (-3)).toRat := by
  constructor
  · rfl
  · simp [Dec.toRat]
    norm_num

/-- C3 (amended): `update_interest_rate` contains no precision check at all:
for every nonnegative rate — of whatever decimal precision — and nonnegative
timestamp it submits exactly one transaction whose rate argument is
`⌊rate * 100⌋` (silent truncation), and never fails with the ABI validation
error, the only up-front rejection the call path has. -/
theorem update_interest_rate_truncates (env : NodeEnv) (m e ts : Int) (w : Bool)
    (hm : 0 ≤ m) (hd : digitsLen m.natAbs ≤ 26) (hts : 0 ≤ ts) :
    (update_interest_rate env ⟨m, e⟩ ts w).2 =
        [⟨"updateInterestRate", (⌊(Dec.mk m e).toRat * 100⌋).toNat, ts.toNat,
          env.gasLimit, env.gasPrice, env.nonce⟩] ∧
      ∀ msg, (update_interest_rate env ⟨m, e⟩ ts w).1 ≠
        .error (.web3ValidationError msg) := by
  have htr : (Dec.mk (m * 100) e).toRat = (Dec.mk m e).toRat * 100 :=
    Dec.toRat_scale m e 100
  have henc : pyInt (pyMul ⟨m, e⟩ ⟨100, 0⟩) = ⌊(Dec.mk m e).toRat * 100⌋ := by
    rw [pyMul_hundred m e hd, pyInt_floor (m * 100) e (by omega), htr]
  have hfl0 : 0 ≤ ⌊(Dec.mk m e).toRat * 100⌋ := by
    apply Int.floor_nonneg.mpr
    have h1 : 0 ≤ (Dec.mk m e).toRat := Dec.toRat_nonneg _ hm
    positivity
  have hcond : ¬(pyInt (pyMul ⟨m, e⟩ ⟨100, 0⟩) < 0 ∨ ts < 0) := by
    rw [henc]
    omega
  simp only [update_interest_rate, henc]
  rw [if_neg (by rw [henc] at hcond; exact hcond)]
  cases w <;> cases hc : env.confirm <;> simp [hc]

theorem update_interest_rate_truncates_witness :
    (0 : Int) ≤ 15123 ∧ digitsLen (15123 : Int).natAbs ≤ 26 ∧
      (0 : Int) ≤ 1700000000 ∧
      ((update_interest_rate ⟨3000000, 7, 5, "0xw", .receiptR ⟨1, 2, 3⟩⟩
            ⟨15123, -3⟩ 1700000000 true).2 =
          [⟨"updateInterestRate", (⌊(Dec.mk 15123 (-3)).toRat * 100⌋).toNat,
            (1700000000 : Int).toNat, 3000000, 7, 5⟩] ∧
        ∀ msg, (update_interest_rate ⟨3000000, 7, 5, "0xw", .receiptR ⟨1, 2, 3⟩⟩
            ⟨15123, -3⟩ 1700000000 true).1 ≠
          .error (.web3ValidationError msg)) :=
  ⟨by norm_num, by decide, by norm_num,
    update_interest_rate_truncates ⟨3000000, 7, 5, "0xw", .receiptR ⟨1, 2, 3⟩⟩
      15123 (-3) 1700000000 true (by norm_num) (by decide) (by norm_num)⟩

/-- C4 counterexample: rate `0` (two decimal places or fewer) with timestamp
`0` is a pair the claim quantifies over; the save succeeds on-chain, yet the
immediate `load` decodes the stored `(0, 0)` slot as `none` (the
never-written convention), not as the saved `(0, 0)` value. -/
theorem save_then_load_zero_counterexample :
    save_then_load ⟨3000000, 7, 5, "0xabc", .receiptR ⟨1, 21000, 12⟩⟩ ⟨0, 0⟩
      ⟨0, 0⟩ 0 = .ok none := by
  have hupd : update_interest_rate
      ⟨3000000, 7, 5, "0xabc", .receiptR ⟨1, 21000, 12⟩⟩ ⟨0, 0⟩ 0 true =
      (.ok ("0xabc", some ⟨1, 21000, 12⟩),
        [⟨"updateInterestRate", 0, 0, 3000000, 7, 5⟩]) := rfl
  simp only [save_then_load, hupd, List.foldl, applyTx]
  simp [get_interest_rate, pyDiv_zero_toRat]

/-- C4 (amended): for every confirmed save of a nonnegative rate with at most
2 decimal places (coefficient of at most 20 digits, exponent in `[-2, 8]`)
and nonnegative timestamp — except the pair `(rate, ts) = (0, 0)`, which
reads back as absent — `save` followed immediately by `load` returns the
rate preserved exactly (to value) together with the timestamp. -/
theorem save_then_load_roundtrip (env : NodeEnv) (s : ChainSlot) (m e ts : Int)
    (r : Receipt) (hc : env.confirm = .receiptR r) (hm : 0 ≤ m) (hel : -2 ≤ e)
    (heu : e ≤ 8) (hdm : digitsLen m.natAbs ≤ 20) (hts : 0 ≤ ts)
    (hnz : ¬(m = 0 ∧ ts = 0)) :
    ∃ rate' : Dec,
      save_then_load env s ⟨m, e⟩ ts = .ok (some (rate', ts.toNat)) ∧
        rate'.toRat = (Dec.mk m e).toRat := by
  lift m to ℕ using hm with n
  rw [Int.natAbs_ofNat] at hdm
  have hmul : pyMul ⟨(n : Int), e⟩ ⟨100, 0⟩ = ⟨(n : Int) * 100, e⟩ :=
    pyMul_hundred _ e (by rw [Int.natAbs_ofNat]; omega)
  have hnn100 : ¬ ((n : Int) * 100) < 0 := by
    have h0 : (0 : Int) ≤ (n : Int) * 100 := by positivity
    omega
  have habs : ((n : Int) * 100).natAbs = n * 100 := by
    rw [Int.natAbs_mul, Int.natAbs_ofNat]
    rfl
  have henc : pyInt (pyMul ⟨(n : Int), e⟩ ⟨100, 0⟩) =
      ((n * 10 ^ (e + 2).toNat : Nat) : Int) := by
    rw [hmul]
    rcases le_or_lt 0 e with he | he
    · simp only [pyInt]
      rw [if_pos he]
      push_cast
      rw [show (e + 2).toNat = e.toNat + 2 by omega, pow_add]
      ring
    · simp only [pyInt]
      rw [if_neg (by omega), if_neg hnn100, habs]
      interval_cases e <;>
        (push_cast; try norm_num; try omega)
  have hcond : ¬(pyInt (pyMul ⟨(n : Int), e⟩ ⟨100, 0⟩) < 0 ∨ ts < 0) := by
    rw [henc]
    have := Int.natCast_nonneg (n * 10 ^ (e + 2).toNat)
    omega
  have hupd : update_interest_rate env ⟨(n : Int), e⟩ ts true =
      (.ok (env.txHashHex, some r),
        [⟨"updateInterestRate", n * 10 ^ (e + 2).toNat, ts.toNat,
          env.gasLimit, env.gasPrice, env.nonce⟩]) := by
    simp only [update_interest_rate, henc]
    rw [if_neg (by rw [henc] at hcond; exact hcond), hc]
    simp only [Int.toNat_natCast, if_true]
  have hval : ((n * 10 ^ (e + 2).toNat : Nat) : ℚ) / 100 =
      (Dec.mk (n : Int) e).toRat := by
    dsimp only [Dec.toRat]
    rcases le_or_lt 0 e with he | he
    · rw [if_pos he]
      push_cast
      rw [show (e + 2).toNat = e.toNat + 2 by omega, pow_add]
      field_simp
      ring
    · rw [if_neg (show ¬ (0 : Int) ≤ e by omega)]
      interval_cases e <;>
        (push_cast; try norm_num; try (field_simp; ring))
  simp only [save_then_load, hupd, List.foldl, applyTx]
  rcases Nat.eq_zero_or_pos n with hn0 | hnpos
  · subst hn0
    have hts0 : ts.toNat ≠ 0 := by
      simp at hnz
      omega
    refine ⟨pyDiv ⟨(0 : Int), 0⟩ ⟨100, 0⟩, ?_, ?_⟩
    · simp [get_interest_rate, pyDiv_zero_toRat, hts0]
    · rw [pyDiv_zero_toRat, ← hval]
      norm_num
  · obtain ⟨d, z, hdz, hd10, hdp⟩ := exists_decomp n hnpos
    have hdn : digitsLen d + z = digitsLen n := (digitsLen_mul_pow10 d z hdp) ▸
      (by rw [← hdz])
    have hK : (e + 2).toNat ≤ 10 := by omega
    have hru : n * 10 ^ (e + 2).toNat = d * 10 ^ (z + (e + 2).toNat) := by
      rw [hdz, pow_add, mul_assoc]
    have hdiv : (pyDiv ⟨((n * 10 ^ (e + 2).toNat : Nat) : Int), 0⟩
        ⟨100, 0⟩).toRat = ((n * 10 ^ (e + 2).toNat : Nat) : ℚ) / 100 := by
      rw [hru]
      exact pyDiv_hundred d (z + (e + 2).toNat) hd10 hdp (by omega) (by omega)
    have hpos : (0 : ℚ) < ((n * 10 ^ (e + 2).toNat : Nat) : ℚ) / 100 := by
      have h1 : 0 < n * 10 ^ (e + 2).toNat := by positivity
      have h2 : (0 : ℚ) < ((n * 10 ^ (e + 2).toNat : Nat) : ℚ) := by
        exact_mod_cast h1
      positivity
    have hne : (pyDiv ⟨((n * 10 ^ (e + 2).toNat : Nat) : Int), 0⟩
        ⟨100, 0⟩).toRat ≠ 0 := by
      rw [hdiv]
      exact ne_of_gt hpos
    refine ⟨pyDiv ⟨((n * 10 ^ (e + 2).toNat : Nat) : Int), 0⟩ ⟨100, 0⟩, ?_, ?_⟩
    · simp only [get_interest_rate]
      rw [if_neg (fun h => hne h.1)]
    · rw [hdiv, hval]

theorem save_then_load_roundtrip_witness :
    ∃ rate' : Dec,
      save_then_load ⟨3000000, 7, 5, "0xabc", .receiptR ⟨1, 21000, 12⟩⟩ ⟨0, 0⟩
          ⟨1550, -2⟩ 1700000000 = .ok (some (rate', (1700000000 : Int).toNat)) ∧
        rate'.toRat = (Dec.mk 1550 (-2)).toRat :=
  save_then_load_roundtrip ⟨3000000, 7, 5, "0xabc", .receiptR ⟨1, 21000, 12⟩⟩
    ⟨0, 0⟩ 1550 (-2) 1700000000 ⟨1, 21000, 12⟩ rfl (by norm_num) (by norm_num)
    (by norm_num) (by decide) (by norm_num) (by norm_num)

/-- C9 counterexample: on a confirmation timeout the calling code had already
obtained the transaction hash (`0xdeadbeef`), yet the surfaced persistence
error carries only the timeout message — the transaction identifier appears
nowhere in it. -/
theorem save_timeout_no_txid_counterexample :
    SmartContractStorage.save_interest_rate
        ⟨3000000, 7, 5, "0xdeadbeef", .timeoutE "read timed out"⟩ ⟨525, -2⟩
        "2024-01-02T03:04:05+00:00" =
      .error ("Failed to save interest rate to smart contract: " ++
        ("Transaction confirmation timeout: " ++ "read timed out")) ∧
      ¬ ("0xdeadbeef".data <:+:
        ("Failed to save interest rate to smart contract: " ++
          ("Transaction confirmation timeout: " ++ "read timed out")).data) := by
  constructor
  · rfl
  · decide

/-- C9 (amended): both failure modes surface as the wrapped persistence
error, but only the remote-rejection path attaches the transaction
identifier: a receipt with status 0 produces an error whose message contains
the tx hash, while a confirmation timeout produces an error built solely
from the timeout message, with no tx hash attached even though one was
obtained. -/
theorem save_failure_error_paths (env : NodeEnv) (rate : Dec)
    (timestamp : String) (u : Int)
    (hts : isoToUnix (String.mk (replaceZ timestamp.data)) = some u)
    (henc : 0 ≤ pyInt (pyMul rate ⟨100, 0⟩)) (hu : 0 ≤ u) :
    (∀ msg, env.confirm = .timeoutE msg →
        SmartContractStorage.save_interest_rate env rate timestamp =
          .error ("Failed to save interest rate to smart contract: " ++
            ("Transaction confirmation timeout: " ++ msg))) ∧
      (∀ r, env.confirm = .receiptR r → r.status = 0 → env.txHashHex ≠ "" →
        SmartContractStorage.save_interest_rate env rate timestamp =
          .error ("Failed to save interest rate to smart contract: " ++
            ("Transaction failed with status 0. TX: " ++ env.txHashHex)) ∧
          env.txHashHex.data <:+:
            ("Failed to save interest rate to smart contract: " ++
              ("Transaction failed with status 0. TX: " ++
                env.txHashHex)).data) := by
  have hcond : ¬(pyInt (pyMul rate ⟨100, 0⟩) < 0 ∨ u < 0) := by omega
  constructor
  · intro msg hcm
    simp only [SmartContractStorage.save_interest_rate, hts,
      update_interest_rate]
    rw [if_neg hcond, hcm]
    simp [PyErr.msg]
  · intro r hcr hst hhx
    constructor
    · simp only [SmartContractStorage.save_interest_rate, hts,
        update_interest_rate]
      rw [if_neg hcond, hcr]
      simp [hhx, hst]
    · refine ⟨("Failed to save interest rate to smart contract: " ++
        "Transaction failed with status 0. TX: ").data, [], ?_⟩
      simp [String.data_append]

theorem save_failure_error_paths_witness :
    SmartContractStorage.save_interest_rate
        ⟨3000000, 7, 5, "0xdeadbeef", .receiptR ⟨0, 21000, 12⟩⟩ ⟨525, -2⟩
        "2024-01-02T03:04:05+00:00" =
      .error ("Failed to save interest rate to smart contract: " ++
        ("Transaction failed with status 0. TX: " ++ "0xdeadbeef")) ∧
      ("0xdeadbeef".data <:+:
        ("Failed to save interest rate to smart contract: " ++
          ("Transaction failed with status 0. TX: " ++ "0xdeadbeef")).data) :=
  (save_failure_error_paths
      ⟨3000000, 7, 5, "0xdeadbeef", .receiptR ⟨0, 21000, 12⟩⟩ ⟨525, -2⟩
      "2024-01-02T03:04:05+00:00" 1704164645 (by decide) (by decide)
      (by norm_num)).2 ⟨0, 21000, 12⟩ rfl rfl (by decide)

/-- C7: the relational backend's load is `none` exactly on the empty table,
and on any table it returns the rate and timestamp of a stored row whose
`updated_at` is maximal among all rows. -/
theorem db_load_returns_latest (db : List InterestRateRow) :
    (get_current_interest_rate_db db = none ↔ db = []) ∧
      ∀ ra ts, get_current_interest_rate_db db = some (ra, ts) →
        (∃ row ∈ db, row.rate = ra ∧ row.updated_at = ts) ∧
          ∀ row ∈ db, row.updated_at ≤ ts := by
  induction db with
  | nil =>
    constructor
    · simp [get_current_interest_rate_db]
    · intro ra ts h
      simp [get_current_interest_rate_db] at h
  | cons r rs ih =>
    constructor
    · constructor
      · intro h
        exfalso
        cases hrs : get_current_interest_rate_db rs with
        | none => simp [get_current_interest_rate_db, hrs] at h
        | some p =>
          obtain ⟨ra', ts'⟩ := p
          by_cases hle : ts' ≤ r.updated_at <;>
            simp [get_current_interest_rate_db, hrs, hle] at h
      · intro h
        cases h
    · intro ra ts h
      cases hrs : get_current_interest_rate_db rs with
      | none =>
        have hnil : rs = [] := ih.1.mp hrs
        subst hnil
        simp [get_current_interest_rate_db] at h
        obtain ⟨hra, hts⟩ := h
        subst hra
        subst hts
        exact ⟨⟨r, by simp, rfl, rfl⟩, by simp⟩
      | some p =>
        obtain ⟨ra', ts'⟩ := p
        obtain ⟨⟨row', hrow', hrate', hts'⟩, hmax'⟩ := ih.2 ra' ts' hrs
        simp only [get_current_interest_rate_db, hrs] at h
        by_cases hle : ts' ≤ r.updated_at
        · rw [if_pos hle] at h
          obtain ⟨hra, hts⟩ := Prod.mk.injEq .. ▸ (Option.some.injEq .. ▸ h)
          constructor
          · exact ⟨r, by simp, by simp [← hra], by simp [← hts]⟩
          · intro row hrow
            rcases List.mem_cons.mp hrow with hr1 | hr2
            · subst hr1
              omega
            · have := hmax' row hr2
              omega
        · rw [if_neg hle] at h
          obtain ⟨hra, hts⟩ := Prod.mk.injEq .. ▸ (Option.some.injEq .. ▸ h)
          constructor
          · exact ⟨row', by simp [hrow'], by simp [hrate', hra],
              by simp [hts', hts]⟩
          · intro row hrow
            rcases List.mem_cons.mp hrow with hr1 | hr2
            · subst hr1
              omega
            · have := hmax' row hr2
              omega

theorem db_load_returns_latest_witness :
    (∃ row ∈ [(⟨1, ⟨100, -2⟩, 10⟩ : InterestRateRow), ⟨2, ⟨200, -2⟩, 20⟩],
        row.rate = ⟨200, -2⟩ ∧ row.updated_at = 20) ∧
      ∀ row ∈ [(⟨1, ⟨100, -2⟩, 10⟩ : InterestRateRow), ⟨2, ⟨200, -2⟩, 20⟩],
        row.updated_at ≤ 20 :=
  (db_load_returns_latest [⟨1, ⟨100, -2⟩, 10⟩, ⟨2, ⟨200, -2⟩, 20⟩]).2
    ⟨200, -2⟩ 20 rfl

/-- C8: the relational backend's save is insert-only: after a save the table
is the old table with every prior row unchanged, in its original position,
plus exactly one appended row — nothing is updated or deleted. -/
theorem db_save_append_only (db : List InterestRateRow) (rate : Dec)
    (ts : Int) :
    (save_interest_rate_db db rate ts).take db.length = db ∧
      (save_interest_rate_db db rate ts).length = db.length + 1 ∧
      ∀ row ∈ db, row ∈ save_interest_rate_db db rate ts := by
  refine ⟨?_, ?_, ?_⟩
  · simp [save_interest_rate_db]
  · simp [save_interest_rate_db]
  · intro row hrow
    simp only [save_interest_rate_db, List.mem_append]
    exact Or.inl hrow

theorem db_save_append_only_witness :
    ((⟨1, ⟨100, -2⟩, 10⟩ : InterestRateRow) ∈
        [(⟨1, ⟨100, -2⟩, 10⟩ : InterestRateRow)]) ∧
      (⟨1, ⟨100, -2⟩, 10⟩ : InterestRateRow) ∈
        save_interest_rate_db [⟨1, ⟨100, -2⟩, 10⟩] ⟨200, -2⟩ 20 :=
  ⟨by simp, (db_save_append_only [⟨1, ⟨100, -2⟩, 10⟩] ⟨200, -2⟩ 20).2.2 _
    (by simp)⟩

end FenceTest
